import Mathlib

/-!
Shallow embedding of the core of ProcMonUI (src/ProcMonUI.cpp): the process
snapshot model, the parent-to-children index (BuildChildren), the recursive
subtree traversal (CollectTree), the filter engine (ToLower / IContains /
ApplyFilter), the OS action primitives (TerminatePid / SuspendPid /
ResumePid) and the batch action engine (ActOnSelection).

Machine strings (wstring) are modelled as lists of characters; DWORD pids
as Nat.  The unbounded C++ recursion of CollectTree is modelled with an
explicit fuel parameter: a result of none means the recursion did not
finish within the given fuel, and a result that is some for a fuel is the
value the C++ code computes (the value is independent of any sufficient
fuel).  OS interaction is modelled by an environment of response functions
plus an explicit trace of the OS calls a run performs.
-/

namespace ProcMonUI

/-- One process record, as filled in by Snapshot: pid and ppid from the
toolhelp enumeration, name from the enumeration entry, path and rss from
the best-effort per-process enrichment (empty / zero when unavailable). -/
structure Proc where
  pid : Nat
  ppid : Nat
  name : List Char := []
  path : List Char := []
  rss : Nat := 0
deriving DecidableEq, Repr

/-- ToLower: lowercase fold of a string (std::transform with towlower). -/
def ToLower (s : List Char) : List Char :=
  s.map Char.toLower

/-- IContains: ToLower(hay).find(ToLower(needle)) != npos, i.e. the lowered
needle occurs as a contiguous substring of the lowered haystack. -/
def IContains (hay needle : List Char) : Bool :=
  decide (List.IsInfix (ToLower needle) (ToLower hay))

/-- ApplyFilter: if the filter is empty the whole snapshot is kept,
otherwise exactly the records whose name or path IContains the filter,
in snapshot order (state passing for the g.all / g.filter globals). -/
def ApplyFilter (all : List Proc) (filter : List Char) : List Proc :=
  if filter.isEmpty then all
  else all.filter (fun p => IContains p.name filter || IContains p.path filter)

/-- BuildChildren: the parent-to-children unordered_map.  The bucket of a
key q holds the pids of the snapshot records whose ppid is q, in snapshot
order (m[p.ppid].push_back(p.pid) over the vector).  A key is absent
(find == end) exactly when no record names it as parent. -/
def BuildChildren (v : List Proc) (q : Nat) : Option (List Nat) :=
  let cs := (v.filter (fun p => p.ppid == q)).map (fun p => p.pid)
  if cs.isEmpty then none else some cs

/-- CollectTree: out.push_back(pid); then, if the index has a bucket for
pid (find != end), recurse into each child in bucket order, the children's
output segments following the pid in order.  The fuel bounds the recursion
depth; none models a recursion that does not finish (the C++ recursion is
unbounded). -/
def CollectTree (ch : Nat → Option (List Nat)) : Nat → Nat → Option (List Nat)
  | 0, _ => none
  | fuel + 1, pid =>
    match ch pid with
    | none => some [pid]
    | some cs =>
      (cs.foldr
        (fun c acc => (CollectTree ch fuel c).bind (fun o => acc.map (fun os => o ++ os)))
        (some [])).map (fun rest => pid :: rest)

/-- The for-loop of CollectTree over a children list: the concatenation of
the subtree traversals of the children, left to right (none as soon as one
child's traversal runs out of fuel). -/
def CollectTreeList (ch : Nat → Option (List Nat)) (fuel : Nat) (cs : List Nat) :
    Option (List Nat) :=
  cs.foldr
    (fun c acc => (CollectTree ch fuel c).bind (fun o => acc.map (fun os => o ++ os)))
    (some [])

/-- A single OS call the action layer can make, recorded in traces. -/
inductive OsCall
  | openTerm (pid : Nat)
  | terminate (pid : Nat)
  | openSr (pid : Nat)
  | ntSuspend (pid : Nat)
  | ntResume (pid : Nat)
deriving DecidableEq, Repr

/-- Responses of the OS to the calls the action layer makes:
whether OpenProcess succeeds for the two access masks, the result of
TerminateProcess, and the NTSTATUS values of NtSuspendProcess and
NtResumeProcess. -/
structure OsEnv where
  openTermOk : Nat → Bool
  termOk : Nat → Bool
  openSrOk : Nat → Bool
  suspSt : Nat → Int
  resuSt : Nat → Int

/-- Whether GetProcAddress resolved NtSuspendProcess / NtResumeProcess at
startup (the pNtSuspendProcess / pNtResumeProcess globals being non-null). -/
structure NtCaps where
  hasSuspend : Bool
  hasResume : Bool
deriving DecidableEq, Repr

/-- TerminatePid: OpenProcess(PROCESS_TERMINATE); on failure return false,
otherwise TerminateProcess and return its success.  Also returns the trace
of OS calls made. -/
def TerminatePid (env : OsEnv) (pid : Nat) : Bool × List OsCall :=
  if env.openTermOk pid then
    (env.termOk pid, [OsCall.openTerm pid, OsCall.terminate pid])
  else
    (false, [OsCall.openTerm pid])

/-- SuspendPid: if pNtSuspendProcess is null return false with no OS call;
otherwise OpenProcess(PROCESS_SUSPEND_RESUME | PROCESS_QUERY_INFORMATION),
on failure return false, otherwise call NtSuspendProcess and return
(status == 0). -/
def SuspendPid (caps : NtCaps) (env : OsEnv) (pid : Nat) : Bool × List OsCall :=
  if caps.hasSuspend then
    if env.openSrOk pid then
      (env.suspSt pid == 0, [OsCall.openSr pid, OsCall.ntSuspend pid])
    else
      (false, [OsCall.openSr pid])
  else
    (false, [])

/-- ResumePid: if pNtResumeProcess is null return false with no OS call;
otherwise open, call NtResumeProcess and return (status == 0). -/
def ResumePid (caps : NtCaps) (env : OsEnv) (pid : Nat) : Bool × List OsCall :=
  if caps.hasResume then
    if env.openSrOk pid then
      (env.resuSt pid == 0, [OsCall.openSr pid, OsCall.ntResume pid])
    else
      (false, [OsCall.openSr pid])
  else
    (false, [])

/-- The per-victim dispatch of ActOnSelection: action 1 = kill,
2 = suspend, 3 = resume (res starts false, so any other action fails). -/
def DoAction (action : Nat) (caps : NtCaps) (env : OsEnv) (pid : Nat) : Bool × List OsCall :=
  if action == 1 then TerminatePid env pid
  else if action == 2 then SuspendPid caps env pid
  else if action == 3 then ResumePid caps env pid
  else (false, [])

/-- Tally of an action loop: the ok / fail counters and the OS calls made,
in order. -/
structure ActionTally where
  ok : Nat
  fail : Nat
  calls : List OsCall
deriving DecidableEq, Repr

/-- The action loop of ActOnSelection, over the victims in iteration order
(the caller passes the reversed sorted list): each victim is attempted
once, ok or fail is incremented, the traces are concatenated. -/
def RunVictims (action : Nat) (caps : NtCaps) (env : OsEnv) : List Nat → ActionTally
  | [] => { ok := 0, fail := 0, calls := [] }
  | pid :: rest =>
    let r := DoAction action caps env pid
    let t := RunVictims action caps env rest
    { ok := (if r.1 then 1 else 0) + t.ok,
      fail := (if r.1 then 0 else 1) + t.fail,
      calls := r.2 ++ t.calls }

/-- std::sort followed by std::unique + erase: the ascending sorted
rearrangement with runs of equal elements collapsed to one. -/
def SortUnique (l : List Nat) : List Nat :=
  (List.insertionSort (fun a b => a ≤ b) l).destutter (fun a b => a ≠ b)

/-- Scope expansion of ActOnSelection: with the Tree box checked every
selected pid contributes its whole CollectTree traversal, otherwise just
itself (the victims vector before sort + unique). -/
def CollectVictims (selected : List Nat) (tree : Bool)
    (ch : Nat → Option (List Nat)) (fuel : Nat) : Option (List Nat) :=
  if tree then CollectTreeList ch fuel selected else some selected

/-- Outcome of ActOnSelection: the empty-selection early return (message
box, no OS interaction), or the tallied run together with the victim
iteration order. -/
inductive ActOutcome
  | invalidRequest
  | done (ok fail : Nat) (attempts : List Nat) (calls : List OsCall)
deriving DecidableEq, Repr

/-- ActOnSelection: early-return on empty selection; otherwise expand the
selection (subtree traversal when tree is set), sort + unique the victims,
and iterate them in reverse (descending pid) invoking the per-victim
action.  The outer none models a subtree traversal that does not finish
within the fuel. -/
def ActOnSelection (action : Nat) (caps : NtCaps) (env : OsEnv)
    (selected : List Nat) (tree : Bool)
    (ch : Nat → Option (List Nat)) (fuel : Nat) : Option ActOutcome :=
  if selected.isEmpty then some ActOutcome.invalidRequest
  else
    match CollectVictims selected tree ch fuel with
    | none => none
    | some victims0 =>
      let victims := SortUnique victims0
      let t := RunVictims action caps env victims.reverse
      some (ActOutcome.done t.ok t.fail victims.reverse t.calls)

/-- One entry of the toolhelp enumeration (PROCESSENTRY32W fields used). -/
structure EnumEntry where
  pid : Nat
  ppid : Nat
  name : List Char := []
deriving DecidableEq, Repr

/-- Responses of the OS to the per-process enrichment queries: whether
OpenProcess(PROCESS_QUERY_INFORMATION | PROCESS_VM_READ) succeeds, and the
results of QueryFullProcessImageNameW and GetProcessMemoryInfo (none =
the query fails). -/
structure QueryEnv where
  openQOk : Nat → Bool
  pathQ : Nat → Option (List Char)
  memQ : Nat → Option Nat

/-- Snapshot: every enumerated entry becomes a record; pid 0 is skipped by
enrichment; when OpenProcess fails the record keeps the defaults (empty
path, zero rss); each successful query fills only its own field. -/
def Snapshot (entries : List EnumEntry) (env : QueryEnv) : List Proc :=
  entries.map (fun e =>
    if e.pid ≠ 0 ∧ env.openQOk e.pid then
      { pid := e.pid, ppid := e.ppid, name := e.name,
        path := (env.pathQ e.pid).getD [],
        rss := (env.memQ e.pid).getD 0 }
    else
      { pid := e.pid, ppid := e.ppid, name := e.name, path := [], rss := 0 })

/-- Reachability in a children index: q is the root p itself or a
transitive descendant through the buckets of the index. -/
inductive Reaches (ch : Nat → Option (List Nat)) : Nat → Nat → Prop
  | refl (p : Nat) : Reaches ch p p
  | step (p c q : Nat) (cs : List Nat) :
      ch p = some cs → c ∈ cs → Reaches ch c q → Reaches ch p q

/-! ### Unfolding and inversion lemmas for the traversal -/

theorem CollectTree_zero (ch : Nat → Option (List Nat)) (p : Nat) :
    CollectTree ch 0 p = none := rfl

theorem CollectTree_succ (ch : Nat → Option (List Nat)) (fuel p : Nat) :
    CollectTree ch (fuel + 1) p =
      match ch p with
      | none => some [p]
      | some cs => (CollectTreeList ch fuel cs).map (fun rest => p :: rest) := rfl

theorem CollectTreeList_nil (ch : Nat → Option (List Nat)) (fuel : Nat) :
    CollectTreeList ch fuel [] = some [] := rfl

theorem CollectTreeList_cons (ch : Nat → Option (List Nat)) (fuel c : Nat) (cs : List Nat) :
    CollectTreeList ch fuel (c :: cs) =
      (CollectTree ch fuel c).bind
        (fun o => (CollectTreeList ch fuel cs).map (fun os => o ++ os)) := rfl

theorem CollectTree_succ_none {ch : Nat → Option (List Nat)} {p : Nat} (fuel : Nat)
    (hch : ch p = none) : CollectTree ch (fuel + 1) p = some [p] := by
  rw [CollectTree_succ, hch]

theorem CollectTree_succ_some {ch : Nat → Option (List Nat)} {p : Nat} {cs : List Nat}
    (fuel : Nat) (hch : ch p = some cs) :
    CollectTree ch (fuel + 1) p = (CollectTreeList ch fuel cs).map (fun rest => p :: rest) := by
  rw [CollectTree_succ, hch]

/-- Inversion for a successful subtree traversal. -/
theorem CollectTree_some_elim {ch : Nat → Option (List Nat)} {fuel p : Nat} {out : List Nat}
    (h : CollectTree ch fuel p = some out) :
    ∃ n, fuel = n + 1 ∧
      ((ch p = none ∧ out = [p]) ∨
        ∃ cs rest, ch p = some cs ∧ CollectTreeList ch n cs = some rest ∧ out = p :: rest) := by
  cases fuel with
  | zero => exact absurd h (by simp [CollectTree_zero])
  | succ n =>
    refine ⟨n, rfl, ?_⟩
    rw [CollectTree_succ] at h
    cases hch : ch p with
    | none =>
      rw [hch] at h
      exact Or.inl ⟨rfl, by simpa using h.symm⟩
    | some cs =>
      rw [hch] at h
      rcases Option.map_eq_some'.mp h with ⟨rest, hrest, hout⟩
      exact Or.inr ⟨cs, rest, rfl, hrest, hout.symm⟩

/-- Inversion for a successful traversal of a children list. -/
theorem CollectTreeList_cons_elim {ch : Nat → Option (List Nat)} {fuel c : Nat}
    {cs outs : List Nat} (h : CollectTreeList ch fuel (c :: cs) = some outs) :
    ∃ o os, CollectTree ch fuel c = some o ∧ CollectTreeList ch fuel cs = some os ∧
      outs = o ++ os := by
  rw [CollectTreeList_cons] at h
  rcases Option.bind_eq_some.mp h with ⟨o, ho, h2⟩
  rcases Option.map_eq_some'.mp h2 with ⟨os, hos, houts⟩
  exact ⟨o, os, ho, hos, houts.symm⟩

/-- A successful traversal emits its root first. -/
theorem CollectTree_head {ch : Nat → Option (List Nat)} {fuel p : Nat} {out : List Nat}
    (h : CollectTree ch fuel p = some out) : out.head? = some p := by
  rcases CollectTree_some_elim h with ⟨n, _, hcase⟩
  rcases hcase with ⟨_, hout⟩ | ⟨cs, rest, _, _, hout⟩ <;> simp [hout]

/-- A successful traversal contains its root. -/
theorem CollectTree_self_mem {ch : Nat → Option (List Nat)} {fuel p : Nat} {out : List Nat}
    (h : CollectTree ch fuel p = some out) : p ∈ out := by
  rcases CollectTree_some_elim h with ⟨n, _, hcase⟩
  rcases hcase with ⟨_, hout⟩ | ⟨cs, rest, _, _, hout⟩ <;> simp [hout]

/-- Soundness of the traversal: every emitted pid is reachable from the
root, and every pid emitted for a children list is reachable from one of
the children. -/
theorem collect_sound (ch : Nat → Option (List Nat)) :
    ∀ fuel : Nat,
      (∀ p out, CollectTree ch fuel p = some out → ∀ x ∈ out, Reaches ch p x) ∧
      (∀ cs outs, CollectTreeList ch fuel cs = some outs →
        ∀ x ∈ outs, ∃ c ∈ cs, Reaches ch c x) := by
  intro fuel
  induction fuel with
  | zero =>
    constructor
    · intro p out h
      exact absurd h (by simp [CollectTree_zero])
    · intro cs outs h x hx
      cases cs with
      | nil =>
        rw [CollectTreeList_nil] at h
        cases h
        simp at hx
      | cons c cs =>
        rcases CollectTreeList_cons_elim h with ⟨o, os, ho, _, _⟩
        exact absurd ho (by simp [CollectTree_zero])
  | succ n ih =>
    have htree : ∀ p out, CollectTree ch (n + 1) p = some out → ∀ x ∈ out, Reaches ch p x := by
      intro p out h x hx
      rcases CollectTree_some_elim h with ⟨m, hm, hcase⟩
      have hmn : m = n := by omega
      subst hmn
      rcases hcase with ⟨_, hout⟩ | ⟨cs, rest, hch, hrest, hout⟩
      · subst hout
        simp at hx
        subst hx
        exact Reaches.refl x
      · subst hout
        rcases List.mem_cons.mp hx with hxp | hxrest
        · subst hxp
          exact Reaches.refl x
        · rcases ih.2 cs rest hrest x hxrest with ⟨c, hc, hreach⟩
          exact Reaches.step p c x cs hch hc hreach
    refine ⟨htree, ?_⟩
    intro cs
    induction cs with
    | nil =>
      intro outs h x hx
      rw [CollectTreeList_nil] at h
      cases h
      simp at hx
    | cons c cs ihcs =>
      intro outs h x hx
      rcases CollectTreeList_cons_elim h with ⟨o, os, ho, hos, houts⟩
      subst houts
      rcases List.mem_append.mp hx with hxo | hxos
      · exact ⟨c, List.mem_cons_self c cs, htree c o ho x hxo⟩
      · rcases ihcs os hos x hxos with ⟨c2, hc2, hreach⟩
        exact ⟨c2, List.mem_cons_of_mem c hc2, hreach⟩

/-- Each child of a traversed children list contributes a successful
subtraversal whose members all appear in the combined output. -/
theorem CollectTreeList_mem_child {ch : Nat → Option (List Nat)} {fuel : Nat} :
    ∀ {cs outs : List Nat} {c : Nat},
      CollectTreeList ch fuel cs = some outs → c ∈ cs →
      ∃ o, CollectTree ch fuel c = some o ∧ ∀ y ∈ o, y ∈ outs := by
  intro cs
  induction cs with
  | nil => intro outs c _ hc; simp at hc
  | cons d cs ih =>
    intro outs c h hc
    rcases CollectTreeList_cons_elim h with ⟨o, os, ho, hos, houts⟩
    subst houts
    rcases List.mem_cons.mp hc with hcd | hcs
    · subst hcd
      exact ⟨o, ho, fun y hy => List.mem_append.mpr (Or.inl hy)⟩
    · rcases ih hos hcs with ⟨o2, ho2, hsub⟩
      exact ⟨o2, ho2, fun y hy => List.mem_append.mpr (Or.inr (hsub y hy))⟩

/-- Completeness of the traversal: every pid reachable from the root
appears in any successful traversal from that root. -/
theorem collect_complete {ch : Nat → Option (List Nat)} {p x : Nat}
    (hreach : Reaches ch p x) :
    ∀ fuel out, CollectTree ch fuel p = some out → x ∈ out := by
  induction hreach with
  | refl p =>
    intro fuel out h
    exact CollectTree_self_mem h
  | step p c q cs hch hc _ ih =>
    intro fuel out h
    rcases CollectTree_some_elim h with ⟨n, _, hcase⟩
    rcases hcase with ⟨hnone, _⟩ | ⟨cs2, rest, hch2, hrest, hout⟩
    · rw [hch] at hnone; cases hnone
    · rw [hch] at hch2
      have hcs : cs2 = cs := (Option.some.inj hch2).symm
      subst hcs
      subst hout
      rcases CollectTreeList_mem_child hrest hc with ⟨o, ho, hsub⟩
      exact List.mem_cons_of_mem p (hsub q (ih n o ho))

/-- With a height function that drops from parent to child, the traversal
finishes once the fuel exceeds the root's height (so the C++ recursion,
which this models, terminates on such an index). -/
theorem collect_terminates {ch : Nat → Option (List Nat)} {h : Nat → Nat}
    (HD : ∀ p cs c, ch p = some cs → c ∈ cs → h c < h p) :
    ∀ fuel : Nat,
      (∀ p, h p < fuel → ∃ out, CollectTree ch fuel p = some out) ∧
      (∀ cs : List Nat, (∀ c ∈ cs, h c < fuel) →
        ∃ outs, CollectTreeList ch fuel cs = some outs) := by
  intro fuel
  induction fuel with
  | zero =>
    constructor
    · intro p hp; omega
    · intro cs hcs
      cases cs with
      | nil => exact ⟨[], CollectTreeList_nil ch 0⟩
      | cons c cs => exact absurd (hcs c (List.mem_cons_self c cs)) (by omega)
  | succ n ih =>
    have htree : ∀ p, h p < n + 1 → ∃ out, CollectTree ch (n + 1) p = some out := by
      intro p hp
      cases hch : ch p with
      | none => exact ⟨[p], CollectTree_succ_none n hch⟩
      | some cs =>
        have hlow : ∀ c ∈ cs, h c < n := by
          intro c hc
          have := HD p cs c hch hc
          omega
        rcases ih.2 cs hlow with ⟨outs, houts⟩
        exact ⟨p :: outs, by rw [CollectTree_succ_some n hch, houts]; rfl⟩
    refine ⟨htree, ?_⟩
    intro cs
    induction cs with
    | nil => intro _; exact ⟨[], CollectTreeList_nil ch (n + 1)⟩
    | cons c cs ihcs =>
      intro hcs
      rcases htree c (hcs c (List.mem_cons_self c cs)) with ⟨o, ho⟩
      rcases ihcs (fun d hd => hcs d (List.mem_cons_of_mem c hd)) with ⟨os, hos⟩
      exact ⟨o ++ os, by rw [CollectTreeList_cons, ho, hos]; rfl⟩

/-- Heights only go down along reachability. -/
theorem Reaches_height_le {ch : Nat → Option (List Nat)} {h : Nat → Nat}
    (HD : ∀ p cs c, ch p = some cs → c ∈ cs → h c < h p) {p x : Nat}
    (hr : Reaches ch p x) : h x ≤ h p := by
  induction hr with
  | refl p => exact le_refl _
  | step p c q cs hch hc _ ih => exact le_trans ih (le_of_lt (HD p cs c hch hc))

/-- A nontrivial reachability ends with a last edge out of some bucket. -/
theorem Reaches_last_edge {ch : Nat → Option (List Nat)} {p q : Nat}
    (hr : Reaches ch p q) :
    p = q ∨ ∃ e cs, Reaches ch p e ∧ ch e = some cs ∧ q ∈ cs := by
  induction hr with
  | refl p => exact Or.inl rfl
  | step p c q cs hch hc _ ih =>
    rcases ih with hcq | ⟨e, cs2, hre, hche, hq⟩
    · subst hcq
      exact Or.inr ⟨p, cs, Reaches.refl p, hch, hc⟩
    · exact Or.inr ⟨e, cs2, Reaches.step p c e cs hch hc hre, hche, hq⟩

/-- When every pid has at most one parent bucket, two ancestors of a pid
are comparable. -/
theorem Reaches_comparable {ch : Nat → Option (List Nat)}
    (UP : ∀ p1 p2 cs1 cs2 c, ch p1 = some cs1 → ch p2 = some cs2 →
      c ∈ cs1 → c ∈ cs2 → p1 = p2)
    {c1 x : Nat} (h1 : Reaches ch c1 x) :
    ∀ c2, Reaches ch c2 x → Reaches ch c1 c2 ∨ Reaches ch c2 c1 := by
  induction h1 with
  | refl p =>
    intro c2 h2
    exact Or.inr h2
  | step p d x cs hch hd _ ih =>
    intro c2 h2
    rcases ih c2 h2 with hdc2 | hc2d
    · exact Or.inl (Reaches.step p d c2 cs hch hd hdc2)
    · rcases Reaches_last_edge hc2d with hc2eq | ⟨e, cs2, hc2e, hche, hdin⟩
      · subst hc2eq
        exact Or.inl (Reaches.step p c2 c2 cs hch hd (Reaches.refl c2))
      · have hep : e = p := UP e p cs2 cs d hche hch hdin hd
        exact Or.inr (hep ▸ hc2e)

/-- A sibling cannot reach another distinct sibling of the same bucket. -/
theorem sibling_reach_absurd {ch : Nat → Option (List Nat)} {h : Nat → Nat}
    (HD : ∀ p cs c, ch p = some cs → c ∈ cs → h c < h p)
    (UP : ∀ p1 p2 cs1 cs2 c, ch p1 = some cs1 → ch p2 = some cs2 →
      c ∈ cs1 → c ∈ cs2 → p1 = p2)
    {p : Nat} {cs : List Nat} (hch : ch p = some cs) {c1 c2 : Nat}
    (h1 : c1 ∈ cs) (h2 : c2 ∈ cs) (hne : c1 ≠ c2)
    (h12 : Reaches ch c1 c2) : False := by
  rcases Reaches_last_edge h12 with heq | ⟨e, cs2, hre, hche, hc2⟩
  · exact hne heq
  · have hep : e = p := UP e p cs2 cs c2 hche hch hc2 h2
    have hle : h p ≤ h c1 := Reaches_height_le HD (hep ▸ hre)
    have hlt : h c1 < h p := HD p cs c1 hch h1
    omega

/-- In a forest index, the subtrees of two distinct siblings are disjoint. -/
theorem siblings_disjoint {ch : Nat → Option (List Nat)} {h : Nat → Nat}
    (HD : ∀ p cs c, ch p = some cs → c ∈ cs → h c < h p)
    (UP : ∀ p1 p2 cs1 cs2 c, ch p1 = some cs1 → ch p2 = some cs2 →
      c ∈ cs1 → c ∈ cs2 → p1 = p2)
    {p : Nat} {cs : List Nat} (hch : ch p = some cs) {c1 c2 : Nat}
    (h1 : c1 ∈ cs) (h2 : c2 ∈ cs) (hne : c1 ≠ c2) {x : Nat}
    (hr1 : Reaches ch c1 x) (hr2 : Reaches ch c2 x) : False := by
  rcases Reaches_comparable UP hr1 c2 hr2 with h12 | h21
  · exact sibling_reach_absurd HD UP hch h1 h2 hne h12
  · exact sibling_reach_absurd HD UP hch h2 h1 (Ne.symm hne) h21

/-- On a forest index (nodup buckets, unique parents, dropping heights)
the traversal emits no pid twice; a children-list traversal of (part of)
one bucket likewise. -/
theorem collect_nodup {ch : Nat → Option (List Nat)} {h : Nat → Nat}
    (HD : ∀ p cs c, ch p = some cs → c ∈ cs → h c < h p)
    (UP : ∀ p1 p2 cs1 cs2 c, ch p1 = some cs1 → ch p2 = some cs2 →
      c ∈ cs1 → c ∈ cs2 → p1 = p2)
    (BN : ∀ p cs, ch p = some cs → cs.Nodup) :
    ∀ fuel : Nat,
      (∀ p out, CollectTree ch fuel p = some out → out.Nodup) ∧
      (∀ (q : Nat) (bs cs outs : List Nat), ch q = some bs → cs.Sublist bs →
        CollectTreeList ch fuel cs = some outs → outs.Nodup) := by
  intro fuel
  induction fuel with
  | zero =>
    constructor
    · intro p out hout
      exact absurd hout (by simp [CollectTree_zero])
    · intro q bs cs outs _ _ hl
      cases cs with
      | nil =>
        rw [CollectTreeList_nil] at hl
        cases hl
        exact List.nodup_nil
      | cons c cs =>
        rcases CollectTreeList_cons_elim hl with ⟨o, os, ho, _, _⟩
        exact absurd ho (by simp [CollectTree_zero])
  | succ n ih =>
    have htree : ∀ p out, CollectTree ch (n + 1) p = some out → out.Nodup := by
      intro p out hout
      rcases CollectTree_some_elim hout with ⟨m, hm, hcase⟩
      have hmn : m = n := by omega
      subst hmn
      rcases hcase with ⟨_, hrfl⟩ | ⟨cs, rest, hch, hrest, hrfl⟩
      · subst hrfl; simp
      · subst hrfl
        have hrestnd : rest.Nodup := ih.2 p cs cs rest hch (List.Sublist.refl cs) hrest
        have hpnot : p ∉ rest := by
          intro hp
          rcases (collect_sound ch m).2 cs rest hrest p hp with ⟨c, hc, hreach⟩
          have hle : h p ≤ h c := Reaches_height_le HD hreach
          have hlt : h c < h p := HD p cs c hch hc
          omega
        exact List.nodup_cons.mpr ⟨hpnot, hrestnd⟩
    refine ⟨htree, ?_⟩
    intro q bs cs
    induction cs with
    | nil =>
      intro outs _ _ hl
      rw [CollectTreeList_nil] at hl
      cases hl
      exact List.nodup_nil
    | cons c cs ihcs =>
      intro outs hq hsub hl
      rcases CollectTreeList_cons_elim hl with ⟨o, os, ho, hos, houts⟩
      subst houts
      have hcsub : cs.Sublist bs := (List.sublist_cons_self c cs).trans hsub
      have hond : o.Nodup := htree c o ho
      have hosnd : os.Nodup := ihcs os hq hcsub hos
      have hdisj : o.Disjoint os := by
        intro x hxo hxos
        have hrc : Reaches ch c x := (collect_sound ch (n + 1)).1 c o ho x hxo
        rcases (collect_sound ch (n + 1)).2 cs os hos x hxos with ⟨c2, hc2, hrc2⟩
        have hcbs : c ∈ bs := hsub.subset (List.mem_cons_self c cs)
        have hc2bs : c2 ∈ bs := hsub.subset (List.mem_cons_of_mem c hc2)
        have hne : c ≠ c2 := by
          intro heq
          subst heq
          have hnd : (c :: cs).Nodup := (BN q bs hq).sublist hsub
          exact (List.nodup_cons.mp hnd).1 hc2
        exact siblings_disjoint HD UP hq hcbs hc2bs hne hrc hrc2
      exact hond.append hosnd hdisj

/-! ### The index built from a snapshot -/

/-- A bucket of the index is the pid list of the records naming its key as
parent, in snapshot order. -/
theorem BuildChildren_some_eq {v : List Proc} {q : Nat} {cs : List Nat}
    (hb : BuildChildren v q = some cs) :
    cs = (v.filter (fun p => p.ppid == q)).map (fun p => p.pid) := by
  simp only [BuildChildren] at hb
  split at hb
  · cases hb
  · exact (Option.some.inj hb).symm

/-- Membership in a bucket of the index. -/
theorem BuildChildren_mem {v : List Proc} {q : Nat} {cs : List Nat} {c : Nat}
    (hb : BuildChildren v q = some cs) :
    c ∈ cs ↔ ∃ r, r ∈ v ∧ r.ppid = q ∧ r.pid = c := by
  rw [BuildChildren_some_eq hb]
  simp only [List.mem_map, List.mem_filter, beq_iff_eq]
  tauto

/-- A pid no record names as parent has no bucket (find == end). -/
theorem BuildChildren_none {v : List Proc} {q : Nat}
    (hq : ∀ r ∈ v, r.ppid ≠ q) : BuildChildren v q = none := by
  simp only [BuildChildren]
  have hfil : v.filter (fun p => p.ppid == q) = [] := by
    rw [List.filter_eq_nil_iff]
    intro r hr
    simp [hq r hr]
  simp [hfil]

/-- A height function on the snapshot is a height function on the index. -/
theorem BuildChildren_HD {v : List Proc} {h : Nat → Nat}
    (hh : ∀ r ∈ v, h r.pid < h r.ppid) :
    ∀ p cs c, BuildChildren v p = some cs → c ∈ cs → h c < h p := by
  intro p cs c hb hc
  rcases (BuildChildren_mem hb).mp hc with ⟨r, hrv, hrq, hrc⟩
  have hlt := hh r hrv
  rw [hrc, hrq] at hlt
  exact hlt

/-- With unique pids in the snapshot, every pid lies in at most one bucket
(its unique parent's). -/
theorem BuildChildren_UP {v : List Proc} (hnd : (v.map Proc.pid).Nodup) :
    ∀ p1 p2 cs1 cs2 c, BuildChildren v p1 = some cs1 → BuildChildren v p2 = some cs2 →
      c ∈ cs1 → c ∈ cs2 → p1 = p2 := by
  intro p1 p2 cs1 cs2 c hb1 hb2 hc1 hc2
  rcases (BuildChildren_mem hb1).mp hc1 with ⟨r1, h1v, h1q, h1c⟩
  rcases (BuildChildren_mem hb2).mp hc2 with ⟨r2, h2v, h2q, h2c⟩
  have hr : r1 = r2 := List.inj_on_of_nodup_map hnd h1v h2v (by rw [h1c, h2c])
  rw [← h1q, ← h2q, hr]

/-- With unique pids in the snapshot, every bucket is duplicate-free. -/
theorem BuildChildren_BN {v : List Proc} (hnd : (v.map Proc.pid).Nodup) :
    ∀ p cs, BuildChildren v p = some cs → cs.Nodup := by
  intro p cs hb
  rw [BuildChildren_some_eq hb]
  exact ((List.filter_sublist v).map Proc.pid).nodup hnd

/-! ### Concrete fixtures used by witnesses and counterexamples -/

/-- Example snapshot with tree-shaped parent links:
1 is the parent of 2 and 3, and 2 is the parent of 4. -/
def wSnap : List Proc :=
  [{ pid := 1, ppid := 0 }, { pid := 2, ppid := 1 },
   { pid := 3, ppid := 1 }, { pid := 4, ppid := 2 }]

/-- A height function witnessing that wSnap's parent links are acyclic. -/
def wHeight : Nat → Nat := fun p => 5 - p

/-- A snapshot containing a record whose ppid equals its own pid — exactly
what the toolhelp enumeration reports for the idle pseudo-process (pid 0
has parent pid 0), so this is a reachable real input. -/
def idleSnap : List Proc := [{ pid := 0, ppid := 0 }]

/-- C1: the claim says the traversal is guarded by a visited set and
terminates on every index, including one whose parent links contain a
cycle.  The code has no visited set: on the index built from a snapshot
whose record has ppid equal to its own pid (the idle pseudo-process row),
CollectTree at that pid recurses forever — for every recursion-depth bound
(fuel) the traversal fails to finish. -/
theorem CollectTree_cycle_diverges :
    ∀ fuel : Nat, CollectTree (BuildChildren idleSnap) fuel 0 = none := by
  have hb : BuildChildren idleSnap 0 = some [0] := by decide
  intro fuel
  induction fuel with
  | zero => exact CollectTree_zero _ _
  | succ n ih =>
    have hl : CollectTreeList (BuildChildren idleSnap) n [0] = none := by
      rw [CollectTreeList_cons, ih]
      rfl
    rw [CollectTree_succ_some n hb, hl]
    rfl

/-- A successful children-list traversal is the in-order concatenation of
one successful subtree traversal per child. -/
theorem CollectTreeList_segments {ch : Nat → Option (List Nat)} {fuel : Nat} :
    ∀ {cs outs : List Nat}, CollectTreeList ch fuel cs = some outs →
      ∃ segs : List (List Nat),
        List.Forall₂ (fun c seg => CollectTree ch fuel c = some seg) cs segs ∧
        outs = segs.flatten := by
  intro cs
  induction cs with
  | nil =>
    intro outs h
    rw [CollectTreeList_nil] at h
    cases h
    exact ⟨[], List.Forall₂.nil, rfl⟩
  | cons c cs ih =>
    intro outs h
    rcases CollectTreeList_cons_elim h with ⟨o, os, ho, hos, houts⟩
    rcases ih hos with ⟨segs, hf, hjoin⟩
    refine ⟨o :: segs, List.Forall₂.cons ho hf, ?_⟩
    rw [houts, hjoin]
    rfl

/-- C2: on an index built from a snapshot whose parent links form a tree
(unique pids and a height function dropping from parent to child), the
depth-first traversal from any root finishes (given fuel above the root's
height, so in particular the unbounded C++ recursion finishes), emits the
root first, and emits the root and each transitive descendant recorded by
the index exactly once, in depth-first child order by construction. -/
theorem CollectTree_tree_spec (v : List Proc) (h : Nat → Nat) (root fuel : Nat)
    (hnd : (v.map Proc.pid).Nodup)
    (hh : ∀ r ∈ v, h r.pid < h r.ppid)
    (hfuel : h root < fuel) :
    ∃ out, CollectTree (BuildChildren v) fuel root = some out ∧
      out.head? = some root ∧ out.Nodup ∧
      (∀ x, x ∈ out ↔ Reaches (BuildChildren v) root x) ∧
      (∀ cs, BuildChildren v root = some cs →
        ∃ n segs, fuel = n + 1 ∧
          List.Forall₂ (fun c seg => CollectTree (BuildChildren v) n c = some seg) cs segs ∧
          out = root :: segs.flatten) := by
  have HD := BuildChildren_HD hh
  have UP := BuildChildren_UP hnd
  have BN := BuildChildren_BN hnd
  rcases (collect_terminates HD fuel).1 root hfuel with ⟨out, hout⟩
  refine ⟨out, hout, CollectTree_head hout,
    (collect_nodup HD UP BN fuel).1 root out hout, ?_, ?_⟩
  · intro x
    exact ⟨fun hx => (collect_sound _ fuel).1 root out hout x hx,
      fun hr => collect_complete hr fuel out hout⟩
  · intro cs hcs
    rcases CollectTree_some_elim hout with ⟨n, hn, hcase⟩
    rcases hcase with ⟨hnone, _⟩ | ⟨cs2, rest, hch2, hrest, hrfl⟩
    · rw [hcs] at hnone; cases hnone
    · rw [hcs] at hch2
      have hcs2 : cs2 = cs := (Option.some.inj hch2).symm
      subst hcs2
      rcases CollectTreeList_segments hrest with ⟨segs, hf, hjoin⟩
      exact ⟨n, segs, hn, hf, by rw [hrfl, hjoin]⟩

/-- Witness for C2 at the snapshot 1→[2,3], 2→[4] with root 1. -/
theorem CollectTree_tree_spec_witness :
    ((wSnap.map Proc.pid).Nodup ∧ (∀ r ∈ wSnap, wHeight r.pid < wHeight r.ppid) ∧
      wHeight 1 < 5) ∧
    ∃ out, CollectTree (BuildChildren wSnap) 5 1 = some out ∧
      out.head? = some 1 ∧ out.Nodup ∧
      (∀ x, x ∈ out ↔ Reaches (BuildChildren wSnap) 1 x) ∧
      (∀ cs, BuildChildren wSnap 1 = some cs →
        ∃ n segs, 5 = n + 1 ∧
          List.Forall₂ (fun c seg => CollectTree (BuildChildren wSnap) n c = some seg) cs segs ∧
          out = 1 :: segs.flatten) :=
  ⟨⟨by decide, by decide, by decide⟩,
    CollectTree_tree_spec wSnap wHeight 1 5 (by decide) (by decide) (by decide)⟩

/-- C10: the traversal emits the root first even when the root occurs
nowhere in the snapshot: a pid with no children bucket yields exactly the
singleton of that pid, never an error; and every successful traversal has
its root as first element. -/
theorem CollectTree_missing_root (v : List Proc) (root fuel : Nat) :
    (0 < fuel → (∀ r ∈ v, r.pid ≠ root ∧ r.ppid ≠ root) →
      CollectTree (BuildChildren v) fuel root = some [root]) ∧
    (∀ out, CollectTree (BuildChildren v) fuel root = some out →
      out.head? = some root) := by
  constructor
  · intro hf habs
    cases fuel with
    | zero => omega
    | succ n =>
      exact CollectTree_succ_none n (BuildChildren_none (fun r hr => (habs r hr).2))
  · intro out hout
    exact CollectTree_head hout

/-- Witness for C10: pid 7 occurs nowhere in wSnap, and its traversal is
the singleton [7]. -/
theorem CollectTree_missing_root_witness :
    CollectTree (BuildChildren wSnap) 1 7 = some [7] :=
  (CollectTree_missing_root wSnap 7 1).1 (by decide) (by decide)

/-! ### The action engine -/

/-- Adjacent ≤ plus adjacent ≠ gives adjacent <. -/
theorem chain_lt_of_le_ne :
    ∀ {l : List Nat}, l.Chain' (fun a b => a ≤ b) → l.Chain' (fun a b => a ≠ b) →
      l.Chain' (fun a b => a < b) := by
  intro l
  induction l with
  | nil => intro _ _; exact List.chain'_nil
  | cons a l ih =>
    cases l with
    | nil => intro _ _; exact List.chain'_singleton a
    | cons b l =>
      intro h1 h2
      rw [List.chain'_cons] at h1 h2 ⊢
      exact ⟨lt_of_le_of_ne h1.1 h2.1, ih h1.2 h2.2⟩

/-- sort followed by unique produces a strictly ascending list. -/
theorem SortUnique_pairwise_lt (l : List Nat) : (SortUnique l).Pairwise (· < ·) := by
  have hsorted : (List.insertionSort (fun a b => a ≤ b) l).Pairwise (fun a b => a ≤ b) :=
    List.sorted_insertionSort _ l
  have hsub : (SortUnique l).Sublist (List.insertionSort (fun a b => a ≤ b) l) :=
    List.destutter_sublist _ _
  have hle : (SortUnique l).Pairwise (fun a b => a ≤ b) := hsorted.sublist hsub
  have hne : (SortUnique l).Chain' (fun a b => a ≠ b) := List.destutter_is_chain' _ _
  have hlt : (SortUnique l).Chain' (fun a b => a < b) := chain_lt_of_le_ne hle.chain' hne
  exact List.chain'_iff_pairwise.mp hlt

/-- The victims list after sort plus unique is duplicate-free. -/
theorem SortUnique_nodup (l : List Nat) : (SortUnique l).Nodup :=
  (SortUnique_pairwise_lt l).imp (fun hab => Nat.ne_of_lt hab)

/-- The action loop attempts each listed victim once, succeeds on exactly
those the per-victim action accepts, fails on the rest, and its two
counters sum to the victim count. -/
theorem RunVictims_counts (action : Nat) (caps : NtCaps) (env : OsEnv) :
    ∀ l : List Nat,
      (RunVictims action caps env l).ok =
        l.countP (fun p => (DoAction action caps env p).1) ∧
      (RunVictims action caps env l).fail =
        l.countP (fun p => !(DoAction action caps env p).1) ∧
      (RunVictims action caps env l).ok + (RunVictims action caps env l).fail = l.length := by
  intro l
  induction l with
  | nil => refine ⟨rfl, rfl, rfl⟩
  | cons p rest ih =>
    rcases ih with ⟨hok, hfail, hlen⟩
    by_cases hdo : (DoAction action caps env p).1 = true
    · refine ⟨?_, ?_, ?_⟩ <;>
        simp [RunVictims, List.countP_cons, hdo, hok, hfail] <;> omega
    · simp only [Bool.not_eq_true] at hdo
      refine ⟨?_, ?_, ?_⟩ <;>
        simp [RunVictims, List.countP_cons, hdo, hok, hfail] <;> omega

/-- Inversion of a completed ActOnSelection run: the selection was
non-empty, expansion succeeded, and ok, fail, the attempt order and the
call trace come from running the reversed sorted deduplicated victims. -/
theorem ActOnSelection_done_elim {action : Nat} {caps : NtCaps} {env : OsEnv}
    {selected : List Nat} {tree : Bool} {ch : Nat → Option (List Nat)} {fuel : Nat}
    {ok fail : Nat} {attempts : List Nat} {calls : List OsCall}
    (h : ActOnSelection action caps env selected tree ch fuel =
      some (ActOutcome.done ok fail attempts calls)) :
    ∃ victims0, selected ≠ [] ∧ CollectVictims selected tree ch fuel = some victims0 ∧
      attempts = (SortUnique victims0).reverse ∧
      ok = (RunVictims action caps env attempts).ok ∧
      fail = (RunVictims action caps env attempts).fail ∧
      calls = (RunVictims action caps env attempts).calls := by
  simp only [ActOnSelection] at h
  split at h
  · rename_i hempty
    exact absurd h (by simp)
  · rename_i hempty
    split at h
    · cases h
    · rename_i victims0 hcv
      have hinj := Option.some.inj h
      rw [ActOutcome.done.injEq] at hinj
      rcases hinj with ⟨hok, hfail, hatt, hcalls⟩
      refine ⟨victims0, by simpa using hempty, hcv, hatt.symm, ?_, ?_, ?_⟩
      · rw [hatt] at hok; exact hok.symm
      · rw [hatt] at hfail; exact hfail.symm
      · rw [hatt] at hcalls; exact hcalls.symm

/-- OS environment used in witnesses: every handle opens, every
suspend/resume succeeds, terminate succeeds except on pid 3 (a simulated
access-denied on one target). -/
def wEnv : OsEnv :=
  { openTermOk := fun _ => true
    termOk := fun p => decide (p ≠ 3)
    openSrOk := fun _ => true
    suspSt := fun _ => 0
    resuSt := fun _ => 0 }

/-- Both Nt entry points resolved. -/
def wCapsAll : NtCaps := { hasSuspend := true, hasResume := true }

/-- Neither Nt entry point resolved (degraded-capability mode). -/
def wCapsNone : NtCaps := { hasSuspend := false, hasResume := false }

/-- Kill-call trace on victims 4, 3, 2, 1 in that order. -/
def wKillCalls4 : List OsCall :=
  [OsCall.openTerm 4, OsCall.terminate 4, OsCall.openTerm 3, OsCall.terminate 3,
   OsCall.openTerm 2, OsCall.terminate 2, OsCall.openTerm 1, OsCall.terminate 1]

/-- Kill-call trace on victims 5, 4, 3, 2, 1 in that order. -/
def wKillCalls5 : List OsCall :=
  [OsCall.openTerm 5, OsCall.terminate 5] ++ wKillCalls4

/-- C5: an empty selection produces the invalid-request outcome for every
action kind, capability state, OS environment, index and fuel: since the
outcome is the same whatever the environment would answer and carries no
calls, no victim set is computed and the OS is never touched. -/
theorem ActOnSelection_empty_invalid (action : Nat) (caps : NtCaps) (env : OsEnv)
    (tree : Bool) (ch : Nat → Option (List Nat)) (fuel : Nat) :
    ActOnSelection action caps env [] tree ch fuel = some ActOutcome.invalidRequest := rfl

/-- C6: with the suspend/resume capability unresolved, SuspendPid and
ResumePid return false for every pid with an empty OS-call trace, and a
Suspend run on a single pid tallies zero successes, one failure, and makes
no OS call at all — in particular the terminate primitive is never
invoked. -/
theorem SuspendResume_capability_absent (caps : NtCaps) (env : OsEnv)
    (hs : caps.hasSuspend = false) (hr : caps.hasResume = false) :
    (∀ pid, SuspendPid caps env pid = (false, []) ∧ ResumePid caps env pid = (false, [])) ∧
    (∀ (pid : Nat) (ch : Nat → Option (List Nat)) (fuel : Nat),
      ActOnSelection 2 caps env [pid] false ch fuel =
        some (ActOutcome.done 0 1 [pid] [])) := by
  constructor
  · intro pid
    constructor <;> simp [SuspendPid, ResumePid, hs, hr]
  · intro pid ch fuel
    simp [ActOnSelection, CollectVictims, SortUnique, List.insertionSort,
      List.destutter_singleton, RunVictims, DoAction, SuspendPid, hs]

/-- Witness for C6 with both capabilities forced unavailable. -/
theorem SuspendResume_capability_absent_witness :
    (SuspendPid wCapsNone wEnv 5 = (false, []) ∧ ResumePid wCapsNone wEnv 5 = (false, [])) ∧
    ActOnSelection 2 wCapsNone wEnv [5] false (BuildChildren wSnap) 1 =
      some (ActOutcome.done 0 1 [5] []) :=
  ⟨(SuspendResume_capability_absent wCapsNone wEnv rfl rfl).1 5,
   (SuspendResume_capability_absent wCapsNone wEnv rfl rfl).2 5 (BuildChildren wSnap) 1⟩

/-- C3: whatever the selection and whether or not subtrees are expanded,
the victim sequence a completed run attempts (the pids handed to the OS
primitive) contains no pid twice. -/
theorem ActOnSelection_attempts_nodup {action : Nat} {caps : NtCaps} {env : OsEnv}
    {selected : List Nat} {tree : Bool} {ch : Nat → Option (List Nat)} {fuel : Nat}
    {ok fail : Nat} {attempts : List Nat} {calls : List OsCall}
    (h : ActOnSelection action caps env selected tree ch fuel =
      some (ActOutcome.done ok fail attempts calls)) : attempts.Nodup := by
  rcases ActOnSelection_done_elim h with ⟨v0, _, _, hatt, _⟩
  rw [hatt, List.nodup_reverse]
  exact SortUnique_nodup v0

/-- Witness for C3: the expanded subtrees of the overlapping selections 1
and 2 intersect (victim 2 and 4 arise twice), yet the attempts are
duplicate-free. -/
theorem ActOnSelection_attempts_nodup_witness :
    ActOnSelection 1 wCapsAll wEnv [1, 2] true (BuildChildren wSnap) 5 =
      some (ActOutcome.done 3 1 [4, 3, 2, 1] wKillCalls4) ∧
    ([4, 3, 2, 1] : List Nat).Nodup :=
  ⟨by decide, ActOnSelection_attempts_nodup
    (show ActOnSelection 1 wCapsAll wEnv [1, 2] true (BuildChildren wSnap) 5 =
        some (ActOutcome.done 3 1 [4, 3, 2, 1] wKillCalls4) by decide)⟩

/-- C4: in a completed run every victim in the deduplicated victim
sequence is attempted exactly once, the successes are exactly the attempts
the per-victim action accepts (so one victim's failure never prevents the
others from being attempted, and nothing is retried), and the two
counters sum to the number of victims. -/
theorem ActOnSelection_partial_failure {action : Nat} {caps : NtCaps} {env : OsEnv}
    {selected : List Nat} {tree : Bool} {ch : Nat → Option (List Nat)} {fuel : Nat}
    {ok fail : Nat} {attempts : List Nat} {calls : List OsCall}
    (h : ActOnSelection action caps env selected tree ch fuel =
      some (ActOutcome.done ok fail attempts calls)) :
    ok + fail = attempts.length ∧
    ok = attempts.countP (fun p => (DoAction action caps env p).1) ∧
    fail = attempts.countP (fun p => !(DoAction action caps env p).1) ∧
    ∀ x ∈ attempts, attempts.count x = 1 := by
  rcases ActOnSelection_done_elim h with ⟨v0, _, _, hatt, hok, hfail, _⟩
  rcases RunVictims_counts action caps env attempts with ⟨rok, rfail, rlen⟩
  refine ⟨?_, ?_, ?_, ?_⟩
  · rw [hok, hfail]; exact rlen
  · rw [hok]; exact rok
  · rw [hfail]; exact rfail
  · intro x hx
    have hnd : attempts.Nodup := by
      rw [hatt, List.nodup_reverse]; exact SortUnique_nodup v0
    exact List.count_eq_one_of_mem hnd hx

/-- Witness for C4: five targets, terminate denied on pid 3 only — four
successes, one failure, all five attempted once each. -/
theorem ActOnSelection_partial_failure_witness :
    ActOnSelection 1 wCapsAll wEnv [1, 2, 3, 4, 5] false (BuildChildren wSnap) 1 =
      some (ActOutcome.done 4 1 [5, 4, 3, 2, 1] wKillCalls5) ∧
    (4 + 1 = ([5, 4, 3, 2, 1] : List Nat).length ∧
      4 = ([5, 4, 3, 2, 1] : List Nat).countP (fun p => (DoAction 1 wCapsAll wEnv p).1) ∧
      1 = ([5, 4, 3, 2, 1] : List Nat).countP (fun p => !(DoAction 1 wCapsAll wEnv p).1) ∧
      ∀ x ∈ ([5, 4, 3, 2, 1] : List Nat), ([5, 4, 3, 2, 1] : List Nat).count x = 1) :=
  ⟨by decide, ActOnSelection_partial_failure
    (show ActOnSelection 1 wCapsAll wEnv [1, 2, 3, 4, 5] false (BuildChildren wSnap) 1 =
        some (ActOutcome.done 4 1 [5, 4, 3, 2, 1] wKillCalls5) by decide)⟩

/-- C9: a completed run attempts its victims in strictly descending pid
order (the victims are sorted ascending, deduplicated, and iterated in
reverse). -/
theorem ActOnSelection_descending {action : Nat} {caps : NtCaps} {env : OsEnv}
    {selected : List Nat} {tree : Bool} {ch : Nat → Option (List Nat)} {fuel : Nat}
    {ok fail : Nat} {attempts : List Nat} {calls : List OsCall}
    (h : ActOnSelection action caps env selected tree ch fuel =
      some (ActOutcome.done ok fail attempts calls)) :
    attempts.Pairwise (fun a b => b < a) := by
  rcases ActOnSelection_done_elim h with ⟨v0, _, _, hatt, _⟩
  rw [hatt]
  exact List.pairwise_reverse.mpr (SortUnique_pairwise_lt v0)

/-- Witness for C9: the tree expansion of the selection 3, 1 is attempted
as 4, 3, 2, 1 — strictly descending. -/
theorem ActOnSelection_descending_witness :
    ActOnSelection 1 wCapsAll wEnv [3, 1] true (BuildChildren wSnap) 5 =
      some (ActOutcome.done 3 1 [4, 3, 2, 1] wKillCalls4) ∧
    ([4, 3, 2, 1] : List Nat).Pairwise (fun a b => b < a) :=
  ⟨by decide, ActOnSelection_descending
    (show ActOnSelection 1 wCapsAll wEnv [3, 1] true (BuildChildren wSnap) 5 =
        some (ActOutcome.done 3 1 [4, 3, 2, 1] wKillCalls4) by decide)⟩

/-! ### Filter engine and snapshot provider -/

/-- Snapshot used by the filter witness. -/
def wFsnap : List Proc :=
  [{ pid := 1, ppid := 0, name := ['A', 'b'], path := [] },
   { pid := 2, ppid := 0, name := ['c', 'd'], path := [] }]

/-- C7: the empty query returns the snapshot unchanged and in order; a
non-empty query keeps exactly the records it case-insensitively
substring-matches in name or path; the output is always a sublist of the
input (relative order preserved); and filtering twice with the same query
equals filtering once. -/
theorem ApplyFilter_spec (s : List Proc) (q : List Char) :
    ApplyFilter s [] = s ∧
    (q ≠ [] → ∀ r, r ∈ ApplyFilter s q ↔
      r ∈ s ∧ (IContains r.name q || IContains r.path q) = true) ∧
    (ApplyFilter s q).Sublist s ∧
    ApplyFilter (ApplyFilter s q) q = ApplyFilter s q := by
  refine ⟨rfl, ?_, ?_, ?_⟩
  · intro hq r
    have hne : q.isEmpty = false := by
      cases q with
      | nil => exact absurd rfl hq
      | cons a as => rfl
    rw [ApplyFilter, if_neg (by simp [hne])]
    exact List.mem_filter
  · by_cases hq : q.isEmpty
    · rw [ApplyFilter, if_pos hq]
    · rw [ApplyFilter, if_neg hq]
      exact List.filter_sublist s
  · by_cases hq : q.isEmpty
    · rw [ApplyFilter, if_pos hq, ApplyFilter, if_pos hq]
    · rw [ApplyFilter, if_neg hq, ApplyFilter, if_neg hq, List.filter_filter]
      simp

/-- Witness for C7: the query B matches the record named Ab (and only it)
case-insensitively. -/
theorem ApplyFilter_spec_witness :
    (['B'] : List Char) ≠ [] ∧
    ∀ r, r ∈ ApplyFilter wFsnap ['B'] ↔
      r ∈ wFsnap ∧ (IContains r.name ['B'] || IContains r.path ['B']) = true :=
  ⟨by decide, (ApplyFilter_spec wFsnap ['B']).2.1 (by decide)⟩

/-- Enumerated entries used by the snapshot witness. -/
def wEntries : List EnumEntry :=
  [{ pid := 1, ppid := 0 }, { pid := 2, ppid := 1 }]

/-- Query environment used by the snapshot witness: opening pid 2 for
enrichment is denied, every other query succeeds. -/
def wQEnv : QueryEnv :=
  { openQOk := fun p => decide (p ≠ 2)
    pathQ := fun _ => some ['x']
    memQ := fun _ => some 7 }

/-- C8: when the per-process open is denied for an enumerated entry, the
snapshot still has one record per entry (nothing is removed, nothing
aborts, no error — Snapshot is total) and that entry's record keeps its
pid, ppid and name with path degraded to the empty string and
residentMemoryBytes degraded to zero. -/
theorem Snapshot_enrichment_degrades (entries : List EnumEntry) (env : QueryEnv)
    (i : Nat) (e : EnumEntry) (he : entries[i]? = some e)
    (hdenied : env.openQOk e.pid = false) :
    (Snapshot entries env).length = entries.length ∧
    (Snapshot entries env)[i]? =
      some { pid := e.pid, ppid := e.ppid, name := e.name, path := [], rss := 0 } := by
  constructor
  · rw [Snapshot]
    exact List.length_map _ _
  · rw [Snapshot, List.getElem?_map, he]
    simp [hdenied]

/-- Witness for C8: enrichment of pid 2 is denied, yet its record appears
at its position with empty path and zero rss. -/
theorem Snapshot_enrichment_degrades_witness :
    (wEntries[1]? = some { pid := 2, ppid := 1, name := [] } ∧ wQEnv.openQOk 2 = false) ∧
    ((Snapshot wEntries wQEnv).length = wEntries.length ∧
      (Snapshot wEntries wQEnv)[1]? =
        some { pid := 2, ppid := 1, name := [], path := [], rss := 0 }) :=
  ⟨⟨by decide, by decide⟩,
    Snapshot_enrichment_degrades wEntries wQEnv 1 { pid := 2, ppid := 1, name := [] }
      (by decide) (by decide)⟩

end ProcMonUI
